import Mathlib

/-!
Shallow embedding of the piglet terminal text-animation player
(src/src/animation/timeline.rs, src/src/animation/renderer.rs,
src/src/animation/effects.rs, src/src/utils/ascii.rs,
src/src/color/palette.rs, src/src/parser/gradient.rs,
src/src/parser/color.rs), together with theorems settling the frozen
claims about it.

Conventions of the embedding:
* Rust machine integers (u8, u32, u64, usize) are modelled as Nat; all the
  arithmetic the claims touch stays far below any overflow boundary.
* Rust f64 arithmetic is modelled as exact rational arithmetic over Rat
  wherever the stated property is insensitive to rounding (progress
  ratios, easing inputs, gradient positions at dyadic rationals); the one
  computation where IEEE rounding is observable in a claimed quantity —
  Timeline::new's frame count — is modelled bit-faithfully with f64round,
  round-to-nearest-even at 53 significand bits (the inputs keep every
  intermediate inside the normal finite f64 range, so neither subnormals
  nor overflow arise).  Rust float-to-integer casts (which truncate
  toward zero and saturate below at 0 for the non-negative ranges used
  here) are modelled as Int.toNat of Int.floor.
* Rust strings are modelled as List Char.
* A Rust operation that can panic (integer division by zero) is modelled
  as an Option-returning function, none standing for the panic.
-/

/- Batteries marks some Rat operations irreducible, which blocks the
elaborator-side evaluation decide needs for concrete rational arithmetic;
restore the default transparency for this file. -/

attribute [local semireducible] Rat.mul Rat.inv Rat.sub Rat.add

/-- Color (src/src/parser/color.rs): RGB triple with 8-bit channels,
channels modelled as Nat with values in 0..=255. -/
structure Color where
  r : Nat
  g : Nat
  b : Nat
deriving DecidableEq, Repr

/-- Color::new. -/
def Color.new (r g b : Nat) : Color := ⟨r, g, b⟩

/-- Clamp to the unit interval, following f64::clamp(0.0, 1.0): the lower
bound when t is below it, the upper bound when t is above it, t itself
otherwise. -/
def clamp01 (t : ℚ) : ℚ :=
  if t < 0 then 0 else if 1 < t then 1 else t

/-- Color::interpolate (src/src/parser/color.rs lines 32-39): clamp t to
[0,1], then per channel compute self + (other - self) * t and truncate
with an `as u8` cast (toward zero; the value is non-negative because it
lies between the two channel values, so truncation is Int.floor). -/
def Color.interpolate (c : Color) (other : Color) (t : ℚ) : Color :=
  let t := clamp01 t
  { r := (Int.floor ((c.r : ℚ) + ((other.r : ℚ) - (c.r : ℚ)) * t)).toNat
    g := (Int.floor ((c.g : ℚ) + ((other.g : ℚ) - (c.g : ℚ)) * t)).toNat
    b := (Int.floor ((c.b : ℚ) + ((other.b : ℚ) - (c.b : ℚ)) * t)).toNat }

/-- ColorPalette (src/src/color/palette.rs): an ordered list of colors. -/
structure ColorPalette where
  colors : List Color
deriving DecidableEq, Repr

/-- ColorPalette::get_color (src/src/color/palette.rs lines 19-24): white
for an empty palette, otherwise the color at index mod length (the index
into the vector is always in bounds, so the Rust indexing never panics). -/
def ColorPalette.get_color (p : ColorPalette) (index : Nat) : Color :=
  if h : p.colors.length = 0 then
    Color.new 255 255 255
  else
    p.colors.get ⟨index % p.colors.length, Nat.mod_lt _ (Nat.pos_of_ne_zero h)⟩

/-- Fuel-driven binary logarithm: natLog2Fuel fuel n is floor(log2 n)
whenever fuel is at least n (each step halves n, so n steps suffice);
structural recursion on the fuel keeps it kernel-computable. -/
def natLog2Fuel : Nat → Nat → Nat
  | 0, _ => 0
  | fuel + 1, n => if 2 ≤ n then natLog2Fuel fuel (n / 2) + 1 else 0

/-- floor(log2 n) for n >= 1. -/
def natLog2 (n : Nat) : Nat :=
  natLog2Fuel n n

/-- Two to an integer power as a rational, by natural powers and one
division (avoiding zpow so the kernel can evaluate it). -/
def qpow2 (k : Int) : ℚ :=
  if 0 ≤ k then (2 : ℚ) ^ k.toNat else 1 / (2 : ℚ) ^ (-k).toNat

/-- floor(log2 x) for a positive rational: the candidate from the
numerator and denominator logarithms is off by at most one, and the two
comparisons correct it so that qpow2 (result) <= x < qpow2 (result+1). -/
def ratFloorLog2 (x : ℚ) : Int :=
  let cand : Int := (natLog2 x.num.toNat : Int) - (natLog2 x.den : Int)
  if x < qpow2 cand then cand - 1
  else if qpow2 (cand + 1) ≤ x then cand + 1
  else cand

/-- Round a rational to the nearest integer, ties to the even integer:
the rounding IEEE-754 applies to the scaled significand. -/
def roundHalfEven (y : ℚ) : Int :=
  if y - ⌊y⌋ < 1 / 2 then ⌊y⌋
  else if 1 / 2 < y - ⌊y⌋ then ⌊y⌋ + 1
  else if ⌊y⌋ % 2 = 0 then ⌊y⌋ else ⌊y⌋ + 1

/-- Round a positive rational to the nearest IEEE-754 binary64 value
(normal range): scale by a power of two so the significand lies in
[2^52, 2^53), round it half-to-even, and scale back. -/
def f64roundPos (x : ℚ) : ℚ :=
  let k := ratFloorLog2 x
  if 52 ≤ k then
    let s := (k - 52).toNat
    ((roundHalfEven (x / (2 : ℚ) ^ s) : ℚ)) * (2 : ℚ) ^ s
  else
    let s := (52 - k).toNat
    ((roundHalfEven (x * (2 : ℚ) ^ s) : ℚ)) / (2 : ℚ) ^ s

/-- Round a rational to the nearest IEEE-754 binary64 value (normal
finite range; the Timeline inputs never reach subnormals or infinity). -/
def f64round (x : ℚ) : ℚ :=
  if x = 0 then 0
  else if x < 0 then -(f64roundPos (-x))
  else f64roundPos x

/-- Timeline (src/src/animation/timeline.rs): frame/time accounting state.
The start_time field (a wall-clock Instant used only by the dead-code
elapsed accessor) is omitted: no claim and no modelled operation reads it. -/
structure Timeline where
  duration_ms : Nat
  fps : Nat
  current_frame : Nat
  total_frames : Nat
deriving DecidableEq, Repr

/-- Timeline::new (src/src/animation/timeline.rs lines 12-22):
total_frames = ((duration_ms as f64 / 1000.0) * fps as f64).ceil() as
usize, with each f64 step modelled bit-faithfully: the u64 and u32 casts
and the division and multiplication each round to nearest-even, ceil of
a finite f64 is exact, and the usize cast truncates (saturating at 0
below; the saturation at usize::MAX is out of the claims' range). -/
def Timeline.new (duration_ms fps : Nat) : Timeline :=
  { duration_ms := duration_ms
    fps := fps
    current_frame := 0
    total_frames :=
      (Int.ceil (f64round
        (f64round (f64round (duration_ms : ℚ) / 1000) *
          f64round (fps : ℚ)))).toNat }

/-- Timeline::is_complete: current_frame >= total_frames. -/
def Timeline.is_complete (t : Timeline) : Bool :=
  t.total_frames ≤ t.current_frame

/-- Timeline::progress (src/src/animation/timeline.rs lines 39-44): 1.0
when total_frames == 0, otherwise min(current_frame / total_frames, 1.0). -/
def Timeline.progress (t : Timeline) : ℚ :=
  if t.total_frames = 0 then 1
  else min ((t.current_frame : ℚ) / (t.total_frames : ℚ)) 1

/-- Timeline::next_frame (src/src/animation/timeline.rs lines 46-53):
returns false without advancing when complete, otherwise advances
current_frame by one and returns true.  The Rust method mutates self and
returns bool; modelled as returning the new state with the bool. -/
def Timeline.next_frame (t : Timeline) : Timeline × Bool :=
  if t.is_complete then (t, false)
  else ({ t with current_frame := t.current_frame + 1 }, true)

/-- Timeline::frame_duration (src/src/animation/timeline.rs lines 55-57):
Duration::from_millis(1000 / fps).  The u64 division panics when fps = 0;
the panic is modelled as none, the normal result (floor division, in
milliseconds) as some. -/
def Timeline.frame_duration (t : Timeline) : Option Nat :=
  if t.fps = 0 then none
  else some (1000 / t.fps)

/-- Iterated next_frame: the timeline after n successive next_frame calls
(dropping the returned bools), used to talk about states reachable from a
fresh timeline. -/
def Timeline.ticks : Timeline → Nat → Timeline
  | t, 0 => t
  | t, n + 1 => Timeline.ticks (t.next_frame).1 n

/-- Whitespace predicate of Rust char::is_whitespace: the Unicode
White_Space code points, enumerated. -/
def charIsWhitespace (c : Char) : Bool :=
  c == ' ' || c == '\t' || c == '\n' || c == '\u000B' || c == '\u000C' ||
  c == '\r' || c == '\u0085' || c == ' ' || c == ' ' ||
  c == ' ' || c == ' ' || c == ' ' || c == ' ' ||
  c == ' ' || c == ' ' || c == ' ' || c == ' ' ||
  c == ' ' || c == ' ' || c == ' ' || c == ' ' ||
  c == ' ' || c == ' ' || c == ' ' || c == '　'

/-- AsciiArt (src/src/utils/ascii.rs): an ordered list of text lines,
each line a list of characters.  The Rust struct caches width and height
computed by AsciiArt::new; here they are the functions AsciiArt.width and
AsciiArt.height, which agree with the cached fields by the constructor
invariant (width = max line length, height = line count). -/
structure AsciiArt where
  lines : List (List Char)
deriving DecidableEq, Repr

/-- Cached width field: lines.iter().map(len).max().unwrap_or(0). -/
def AsciiArt.width (art : AsciiArt) : Nat :=
  (art.lines.map List.length).foldr max 0

/-- Cached height field: lines.len(). -/
def AsciiArt.height (art : AsciiArt) : Nat :=
  art.lines.length

/-- AsciiArt::render: lines joined with a newline. -/
def AsciiArt.render (art : AsciiArt) : List Char :=
  List.intercalate ['\n'] art.lines

/-- AsciiArt::char_count (src/src/utils/ascii.rs lines 46-51): the number
of non-whitespace characters over all lines. -/
def AsciiArt.char_count (art : AsciiArt) : Nat :=
  (art.lines.flatten.filter (fun c => !charIsWhitespace c)).length

/-- AsciiArt::apply_fade (src/src/utils/ascii.rs lines 68-91): the
original text for opacity >= 1; the single string
" ".repeat(width).repeat(height) for opacity <= 0; otherwise every
non-whitespace character replaced by the fade ramp glyph at index
floor(opacity * 9) and lines joined with newlines. -/
def AsciiArt.apply_fade (art : AsciiArt) (opacity : ℚ) : List Char :=
  if 1 ≤ opacity then art.render
  else if opacity ≤ 0 then
    (List.replicate art.height (List.replicate art.width ' ')).flatten
  else
    let fadeChars : List Char := [' ', '.', '·', '-', '~', '=', '+', '*', '#', '@']
    let index := (Int.floor (opacity * ((fadeChars.length - 1 : Nat) : ℚ))).toNat
    let fadeChar := fadeChars.getD index ' '
    List.intercalate ['\n']
      (art.lines.map (fun line =>
        line.map (fun ch => if charIsWhitespace ch then ch else fadeChar)))

/-- Split a character list at every occurrence of a separator; the
segments of the result are the "lines" of a rendered string when the
separator is a newline. -/
def splitOnChar (sep : Char) : List Char → List (List Char)
  | [] => [[]]
  | c :: cs =>
    match splitOnChar sep cs, decide (c = sep) with
    | r, true => [] :: r
    | [], false => [[c]]
    | h :: t, false => (c :: h) :: t

/-- Render loop of Renderer::render (src/src/animation/renderer.rs lines
67-160), modelled as a pure recursion.  The cancellation flag written by
the concurrent key-listener thread is modelled as an oracle giving the
value of each successive atomic load; the loop performs four loads per
tick (numbered from k) at the source's four check points: top of the
tick, after computing eased progress, after applying effect and colors,
and after painting.  Painting a frame appends the pair (linear progress,
eased progress) of the painted frame to the paint trace; terminal writes
themselves always succeed in this model.  The Bool result is the payload
of the Ok value returned by the Rust function: true for user
cancellation, false for natural completion — both are successful (Ok)
exits, never an error. -/
def renderLoop (cancel : Nat → Bool) (ease : ℚ → ℚ) (k : Nat)
    (t : Timeline) (paints : List (ℚ × ℚ)) : Bool × List (ℚ × ℚ) :=
  if cancel k then (true, paints)
  else
    let linear := t.progress
    let eased := ease linear
    if cancel (k + 1) then (true, paints)
    else if cancel (k + 2) then (true, paints)
    else
      let paints' := paints ++ [(linear, eased)]
      if cancel (k + 3) then (true, paints')
      else if t.is_complete then (false, paints')
      else renderLoop cancel ease (k + 4) (t.next_frame).1 paints'
termination_by t.total_frames - t.current_frame
decreasing_by
  simp_all [Timeline.next_frame, Timeline.is_complete]
  split <;> simp_all <;> omega

/-- ColorStop (src/src/parser/gradient.rs): a color with its position. -/
structure ColorStop where
  color : Color
  position : ℚ
deriving DecidableEq, Repr

/-- Gradient (src/src/parser/gradient.rs): ordered stops plus an angle. -/
structure Gradient where
  stops : List ColorStop
  angle : ℚ
deriving DecidableEq, Repr

/-- Scan of Gradient::color_at (src/src/parser/gradient.rs lines 99-109):
walk consecutive stop pairs; the first pair whose positions bracket t
interpolates, and when the loop exhausts the pairs the last stop's color
is returned.  (When two consecutive stops share a position and t equals
it, the Rust code divides 0.0 by 0.0 giving NaN whose u8 cast yields 0;
the rational model yields local_t = 0 instead, so theorems about the
interpolating branch assume strictly increasing bracket positions.) -/
def scanStops : List ColorStop → ℚ → Color
  | [], _ => Color.new 255 255 255
  | [s], _ => s.color
  | s1 :: s2 :: rest, t =>
    if s1.position ≤ t ∧ t ≤ s2.position then
      s1.color.interpolate s2.color ((t - s1.position) / (s2.position - s1.position))
    else scanStops (s2 :: rest) t

/-- Gradient::color_at (src/src/parser/gradient.rs lines 89-111): white
for no stops, the single stop's color for one stop, otherwise clamp t to
[0,1] and scan the consecutive stop pairs. -/
def Gradient.color_at (g : Gradient) (t : ℚ) : Color :=
  match g.stops with
  | [] => Color.new 255 255 255
  | [s] => s.color
  | s1 :: s2 :: rest => scanStops (s1 :: s2 :: rest) (clamp01 t)

/-- Drop Unicode whitespace from both ends of a character list
(str::trim). -/
def trimChars (s : List Char) : List Char :=
  ((s.dropWhile charIsWhitespace).reverse.dropWhile charIsWhitespace).reverse

/-- str::strip_prefix on character lists: the remainder after the lead
pattern, or none when the pattern does not lead the string. -/
def removeLead : List Char → List Char → Option (List Char)
  | [], s => some s
  | _ :: _, [] => none
  | p :: ps, c :: cs => if c = p then removeLead ps cs else none

/-- str::strip_suffix on character lists. -/
def removeTrail (pat s : List Char) : Option (List Char) :=
  (removeLead pat.reverse s.reverse).map List.reverse

/-- str::trim_end_matches: repeatedly remove the pattern from the end
while it is a suffix; the fuel argument (the string length) bounds the
iterations, each of which shortens the string. -/
def trimEndLoop (pat : List Char) : Nat → List Char → List Char
  | 0, s => s
  | fuel + 1, s =>
    match removeTrail pat s with
    | some s' => if pat.isEmpty then s else trimEndLoop pat fuel s'
    | none => s

/-- str::trim_end_matches driver. -/
def trimEndMatches (pat s : List Char) : List Char :=
  trimEndLoop pat s.length s

/-- Last index satisfying a predicate (str::rfind), as a character
index.  The Rust code uses byte indices; the strings it slices here are
ASCII in every reachable use, where the two coincide. -/
def rfindIdx (p : Char → Bool) : List Char → Option Nat
  | [] => none
  | c :: cs =>
    match rfindIdx p cs with
    | some i => some (i + 1)
    | none => if p c then some 0 else none

/-- Digit value of a decimal digit character. -/
def digitVal (c : Char) : Option Nat :=
  if c.isDigit then some (c.toNat - 48) else none

/-- A non-empty all-digit character list as a natural number. -/
def parseNatDigits (s : List Char) : Option Nat :=
  if s.isEmpty then none
  else s.foldl (fun acc c => acc.bind (fun a => (digitVal c).map (fun d => a * 10 + d)))
    (some 0)

/-- Finite-decimal subset of f64::from_str (an optional sign, integer
digits, optionally a point and fraction digits), exact as a rational:
this models the numeric parses of the gradient parser ("180" in
"180deg", "50" in "50%"). -/
def parseUnsignedRat (s : List Char) : Option ℚ :=
  match splitOnChar '.' s with
  | [intPart] => (parseNatDigits intPart).map (fun n => (n : ℚ))
  | [intPart, fracPart] =>
    match parseNatDigits intPart, parseNatDigits fracPart with
    | some a, some b => some ((a : ℚ) + (b : ℚ) / ((10 : ℚ) ^ fracPart.length))
    | _, _ => none
  | _ => none

/-- Signed wrapper of parseUnsignedRat. -/
def parseRat (s : List Char) : Option ℚ :=
  match s with
  | '-' :: rest => (parseUnsignedRat rest).map Neg.neg
  | '+' :: rest => parseUnsignedRat rest
  | _ => parseUnsignedRat s

/-- Hexadecimal digit value. -/
def hexVal (c : Char) : Option Nat :=
  if c.isDigit then some (c.toNat - 48)
  else if 'a' ≤ c ∧ c ≤ 'f' then some (c.toNat - 97 + 10)
  else if 'A' ≤ c ∧ c ≤ 'F' then some (c.toNat - 65 + 10)
  else none

/-- Modelled from the spec: the CSS named colors recognized by the
external color-string parser (the csscolorparser crate, whose source is
not part of this repository); the 16 basic CSS names with their standard
RGB values, including the "red" and "blue" the round-trip claim uses. -/
def namedColor (s : List Char) : Option Color :=
  if s = "black".toList then some (Color.new 0 0 0)
  else if s = "silver".toList then some (Color.new 192 192 192)
  else if s = "gray".toList then some (Color.new 128 128 128)
  else if s = "white".toList then some (Color.new 255 255 255)
  else if s = "maroon".toList then some (Color.new 128 0 0)
  else if s = "red".toList then some (Color.new 255 0 0)
  else if s = "purple".toList then some (Color.new 128 0 128)
  else if s = "fuchsia".toList then some (Color.new 255 0 255)
  else if s = "green".toList then some (Color.new 0 128 0)
  else if s = "lime".toList then some (Color.new 0 255 0)
  else if s = "olive".toList then some (Color.new 128 128 0)
  else if s = "yellow".toList then some (Color.new 255 255 0)
  else if s = "navy".toList then some (Color.new 0 0 128)
  else if s = "blue".toList then some (Color.new 0 0 255)
  else if s = "teal".toList then some (Color.new 0 128 128)
  else if s = "aqua".toList then some (Color.new 0 255 255)
  else none

/-- Modelled from the spec: Color::parse (src/src/parser/color.rs lines
32-39) delegates to the external csscolorparser crate, whose code is not
in the repository; the spec's contract for it is "#RRGGBB or named color
→ RGB, error on invalid".  The crate parses a channel byte n into the
float n/255 and the repository converts it back with (f * 255.0) as u8,
which round-trips to exactly n, so the channel bytes are produced
directly. -/
def Color.parse (s : List Char) : Except (List Char) Color :=
  match s with
  | '#' :: h1 :: h2 :: h3 :: h4 :: h5 :: h6 :: [] =>
    match hexVal h1, hexVal h2, hexVal h3, hexVal h4, hexVal h5, hexVal h6 with
    | some a, some b, some c, some d, some e, some f =>
      Except.ok (Color.new (16 * a + b) (16 * c + d) (16 * e + f))
    | _, _, _, _, _, _ => Except.error ("Failed to parse hex color".toList)
  | _ =>
    match namedColor s with
    | some c => Except.ok c
    | none => Except.error ("Failed to parse hex color".toList)

/-- Stop construction loop of Gradient::parse (src/src/parser/gradient.rs
lines 60-85): for the i-th of count color parts, the default position is
i / max(count-1, 1); a trailing "NN%" after whitespace overrides the
position with NN/100 and the text before the whitespace becomes the
color; the first color-parse failure aborts with its error. -/
def buildStops (count : Nat) : Nat → List (List Char) → Except (List Char) (List ColorStop)
  | _, [] => Except.ok []
  | i, part :: rest =>
    let part := trimChars part
    let defaultPos : ℚ := (i : ℚ) / ((Nat.max (count - 1) 1 : Nat) : ℚ)
    let colorAndPos : List Char × ℚ :=
      match rfindIdx (fun c => c == '%') part with
      | some pp =>
        match rfindIdx charIsWhitespace (part.take pp) with
        | some sp =>
          let color_str := trimChars (part.take sp)
          let percent_str := trimChars ((part.take pp).drop (sp + 1))
          match parseRat percent_str with
          | some p => (color_str, p / 100)
          | none => (color_str, defaultPos)
        | none => (part, defaultPos)
      | none => (part, defaultPos)
    match Color.parse colorAndPos.1 with
    | Except.error e => Except.error e
    | Except.ok c =>
      (buildStops count (i + 1) rest).map
        (fun stops => ColorStop.mk c colorAndPos.2 :: stops)

/-- Angle of the optional leading part (src/src/parser/gradient.rs lines
40-58): "NNdeg" parses the number (default 180 on failure), "to DIR"
maps the four directions, anything else is the default 180. -/
def parseAngle (first : List Char) : ℚ :=
  if ("deg".toList).isSuffixOf first then
    (parseRat (trimChars (trimEndMatches ("deg".toList) first))).getD 180
  else if ("to ".toList).isPrefixOf first then
    if trimChars first = "to right".toList then 90
    else if trimChars first = "to left".toList then 270
    else if trimChars first = "to top".toList then 0
    else if trimChars first = "to bottom".toList then 180
    else 180
  else 180

/-- Gradient::parse (src/src/parser/gradient.rs lines 21-87): trim,
require the "linear-gradient(" lead, strip it and the ")" tail, split
the content on commas and trim the parts, read an optional leading
angle/direction part, then build the color stops. -/
def Gradient.parse (s : List Char) : Except (List Char) Gradient :=
  let s := trimChars s
  if ¬ (("linear-gradient(".toList).isPrefixOf s) then
    Except.error ("Only linear-gradient is supported".toList)
  else
    match (removeLead ("linear-gradient(".toList) s).bind (removeTrail (")".toList)) with
    | none => Except.error ("Invalid gradient syntax".toList)
    | some content =>
      let parts := (splitOnChar ',' content).map trimChars
      if parts.isEmpty then Except.error ("Gradient must have at least one color".toList)
      else
        match parts with
        | [] => Except.error ("Gradient must have at least one color".toList)
        | first :: restParts =>
          let hasAngle :=
            ("deg".toList).isSuffixOf first ∨ ("to ".toList).isPrefixOf first
          let color_parts := if hasAngle then restParts else parts
          let angle := if hasAngle then parseAngle first else 180
          (buildStops color_parts.length 0 color_parts).map
            (fun stops => Gradient.mk stops angle)

/-- Row-major strict ordering on (x, y, char) position triples: earlier
row, or same row and earlier column. -/
def rowMajorLt (a b : Nat × Nat × Char) : Prop :=
  a.2.1 < b.2.1 ∨ (a.2.1 = b.2.1 ∧ a.1 < b.1)

/-- Distinct-coordinate relation on position triples. -/
def coordNe (a b : Nat × Nat × Char) : Prop :=
  a.1 ≠ b.1 ∨ a.2.1 ≠ b.2.1

/-- Inner loop of AsciiArt::char_positions (src/src/utils/ascii.rs lines
53-65): the (x, y, char) triples of the non-whitespace characters of one
line, x counting from the given start column. -/
def rowPosFrom (y : Nat) : Nat → List Char → List (Nat × Nat × Char)
  | _, [] => []
  | x, c :: cs =>
    if charIsWhitespace c then rowPosFrom y (x + 1) cs
    else (x, y, c) :: rowPosFrom y (x + 1) cs

/-- Outer loop of AsciiArt::char_positions: rows enumerated from the
given start row. -/
def charPositionsFrom : Nat → List (List Char) → List (Nat × Nat × Char)
  | _, [] => []
  | y, line :: rest => rowPosFrom y 0 line ++ charPositionsFrom (y + 1) rest

/-- AsciiArt::char_positions: all non-whitespace character positions in
row-major (left-to-right, top-to-bottom) scan order. -/
def AsciiArt.char_positions (art : AsciiArt) : List (Nat × Nat × Char) :=
  charPositionsFrom 0 art.lines

/-- One write-back of the Typewriter loop: set the cell at column x of
row y.  Out-of-range coordinates leave the grid unchanged, exactly as
the source's get_mut / x < chars.len() guards do. -/
def setCell : List (List Char) → Nat → Nat → Char → List (List Char)
  | [], _, _, _ => []
  | line :: rest, x, 0, ch => line.set x ch :: rest
  | line :: rest, x, y + 1, ch => line :: setCell rest x y ch

/-- Write-back loop of Typewriter::apply (src/src/animation/effects.rs
lines 231-241): walk the enumerated positions and write those whose
enumeration index is below the visible count. -/
def writeVisible (visible : Nat) : Nat → List (Nat × Nat × Char) → List (List Char) → List (List Char)
  | _, [], g => g
  | i, (x, y, ch) :: ps, g =>
    writeVisible visible (i + 1) ps (if i < visible then setCell g x y ch else g)

/-- Initial canvas of Typewriter::apply (src/src/animation/effects.rs
lines 223-230): whitespace kept, every other character blanked. -/
def blankGrid (lines : List (List Char)) : List (List Char) :=
  lines.map (fun l => l.map (fun c => if charIsWhitespace c then c else ' '))

/-- Typewriter::apply (src/src/animation/effects.rs lines 216-244) as a
grid: visible_chars = (total_chars * progress) as usize (truncating
toward zero, saturating at 0 below), then the first visible_chars
positions written onto the blanked canvas. -/
def Typewriter.applyLines (art : AsciiArt) (progress : ℚ) : List (List Char) :=
  let total_chars := art.char_count
  let visible_chars := (Int.floor ((total_chars : ℚ) * progress)).toNat
  writeVisible visible_chars 0 art.char_positions (blankGrid art.lines)

/-- Typewriter::apply's EffectResult text: the grid joined with
newlines. -/
def Typewriter.apply (art : AsciiArt) (progress : ℚ) : List Char :=
  List.intercalate ['\n'] (Typewriter.applyLines art progress)

/-- Cell lookup in a grid of lines. -/
def cellAt (g : List (List Char)) (x y : Nat) : Option Char :=
  (g.get? y).bind (fun line => line.get? x)

theorem Timeline.next_frame_fields (t : Timeline) :
    (t.next_frame).1.total_frames = t.total_frames ∧
    (t.next_frame).1.fps = t.fps ∧
    (t.next_frame).1.duration_ms = t.duration_ms := by
  unfold Timeline.next_frame
  split <;> simp

theorem Timeline.ticks_fields (t : Timeline) (n : Nat) :
    (t.ticks n).total_frames = t.total_frames ∧
    (t.ticks n).fps = t.fps ∧
    (t.ticks n).duration_ms = t.duration_ms := by
  induction n generalizing t with
  | zero => simp [Timeline.ticks]
  | succ n ih =>
    have h := Timeline.next_frame_fields t
    have h2 := ih (t.next_frame).1
    simp only [Timeline.ticks]
    exact ⟨h2.1.trans h.1, h2.2.1.trans h.2.1, h2.2.2.trans h.2.2⟩

theorem Timeline.ticks_current (t : Timeline) (n : Nat)
    (h : t.current_frame ≤ t.total_frames) :
    (t.ticks n).current_frame = min (t.current_frame + n) t.total_frames := by
  induction n generalizing t with
  | zero => simp [Timeline.ticks]; omega
  | succ n ih =>
    simp only [Timeline.ticks]
    by_cases hc : t.total_frames ≤ t.current_frame
    · have hnext : (t.next_frame).1 = t := by
        simp [Timeline.next_frame, Timeline.is_complete, hc]
      rw [hnext, ih t h]
      omega
    · have hnext : (t.next_frame).1 = { t with current_frame := t.current_frame + 1 } := by
        simp [Timeline.next_frame, Timeline.is_complete, hc]
      rw [hnext, ih { t with current_frame := t.current_frame + 1 } (by simp; omega)]
      simp
      omega

theorem Timeline.progress_le_one (t : Timeline) : t.progress ≤ 1 := by
  unfold Timeline.progress
  split
  · exact le_refl 1
  · exact min_le_right _ _

theorem Timeline.progress_mono_step (t : Timeline) :
    t.progress ≤ ((t.next_frame).1).progress := by
  unfold Timeline.next_frame
  by_cases hc : t.is_complete
  · simp [hc]
  · simp only [hc, Bool.false_eq_true, if_neg, not_false_iff]
    have hlt : t.current_frame < t.total_frames := by
      have := hc
      unfold Timeline.is_complete at this
      simpa using this
    have hT : t.total_frames ≠ 0 := by omega
    unfold Timeline.progress
    simp only [hT, if_neg, not_false_iff]
    have hTpos : (0 : ℚ) < (t.total_frames : ℚ) := by
      exact_mod_cast Nat.pos_of_ne_zero hT
    refine min_le_min ?_ le_rfl
    exact (div_le_div_iff_of_pos_right hTpos).mpr (by exact_mod_cast Nat.le_succ _)

/-- C3: a timeline reached by n next_frame calls from Timeline::new has
monotonically non-decreasing progress across a further next_frame call,
progress never exceeding 1, equal to min(current/total, 1) when
total_frames is nonzero, equal to 1 when total_frames = 0, equal to
exactly 1 at or after total_frames ticks, and next_frame never advances
current_frame past total_frames. -/
theorem timeline_progress_invariants (d fps n : Nat) :
    ((Timeline.new d fps).ticks n).progress ≤
      ((((Timeline.new d fps).ticks n).next_frame).1).progress ∧
    ((Timeline.new d fps).ticks n).progress ≤ 1 ∧
    (((Timeline.new d fps).ticks n).total_frames ≠ 0 →
      ((Timeline.new d fps).ticks n).progress =
        min ((((Timeline.new d fps).ticks n).current_frame : ℚ) /
              (((Timeline.new d fps).ticks n).total_frames : ℚ)) 1) ∧
    (((Timeline.new d fps).ticks n).total_frames = 0 →
      ((Timeline.new d fps).ticks n).progress = 1) ∧
    ((Timeline.new d fps).total_frames ≤ n →
      ((Timeline.new d fps).ticks n).progress = 1) ∧
    ((Timeline.new d fps).ticks n).current_frame ≤
      ((Timeline.new d fps).ticks n).total_frames ∧
    ((((Timeline.new d fps).ticks n).next_frame).1).current_frame ≤
      ((Timeline.new d fps).ticks n).total_frames := by
  have hfields := Timeline.ticks_fields (Timeline.new d fps) n
  have hcur0 : (Timeline.new d fps).current_frame = 0 := rfl
  have hcur := Timeline.ticks_current (Timeline.new d fps) n (by omega)
  rw [hcur0] at hcur
  have hle : ((Timeline.new d fps).ticks n).current_frame ≤
      ((Timeline.new d fps).ticks n).total_frames := by
    rw [hcur, hfields.1]; omega
  refine ⟨Timeline.progress_mono_step _, Timeline.progress_le_one _, ?_, ?_, ?_, hle, ?_⟩
  · intro hT
    unfold Timeline.progress
    simp [hT]
  · intro hT
    unfold Timeline.progress
    simp [hT]
  · intro hn
    have hc : ((Timeline.new d fps).ticks n).current_frame =
        ((Timeline.new d fps).ticks n).total_frames := by
      rw [hcur, hfields.1]; omega
    unfold Timeline.progress
    by_cases hT : ((Timeline.new d fps).ticks n).total_frames = 0
    · simp [hT]
    · have hTpos : (0 : ℚ) < (((Timeline.new d fps).ticks n).total_frames : ℚ) := by
        exact_mod_cast Nat.pos_of_ne_zero hT
      rw [if_neg hT, hc, div_self (ne_of_gt hTpos), min_self]
  · unfold Timeline.next_frame
    by_cases hcomp : ((Timeline.new d fps).ticks n).is_complete
    · simp only [hcomp, if_pos]
      exact hle
    · simp only [hcomp, Bool.false_eq_true, if_neg, not_false_iff]
      have : ((Timeline.new d fps).ticks n).current_frame <
          ((Timeline.new d fps).ticks n).total_frames := by
        unfold Timeline.is_complete at hcomp
        simpa using hcomp
      simpa using this

/-- C7 counterexample: the claim says every Timeline operation is total
for all inputs including fps = 0, but frame_duration() divides 1000 by
fps with u64 division and panics (modelled as none) on a timeline built
with fps = 0. -/
theorem timeline_frame_duration_fps_zero_panics :
    (Timeline.new 1000 0).frame_duration = none := rfl

/-- C7 amended: frame_duration() is the one partial Timeline operation:
on every timeline reachable from Timeline::new by next_frame calls it
returns the constant floor(1000/fps) milliseconds whenever fps is
nonzero (the same fixed value for the whole playback), and panics
(division by zero, modelled as none) exactly when fps = 0. -/
theorem timeline_frame_duration_constant (d fps n : Nat) :
    (fps ≠ 0 →
      ((Timeline.new d fps).ticks n).frame_duration = some (1000 / fps)) ∧
    (fps = 0 → ((Timeline.new d fps).ticks n).frame_duration = none) := by
  have hfps : ((Timeline.new d fps).ticks n).fps = fps :=
    (Timeline.ticks_fields (Timeline.new d fps) n).2.1
  constructor
  · intro h
    unfold Timeline.frame_duration
    rw [hfps, if_neg h]
  · intro h
    unfold Timeline.frame_duration
    rw [hfps, if_pos h]

/-- C8: get_color on a non-empty palette is cyclic: adding any multiple
of the palette length to the index yields the same color. -/
theorem palette_get_color_cyclic (colors : List Color) (i n : Nat)
    (h : colors ≠ []) :
    (ColorPalette.mk colors).get_color i =
      (ColorPalette.mk colors).get_color (i + n * colors.length) := by
  have hL : colors.length ≠ 0 := by
    simpa using h
  have hmod : (i + n * colors.length) % colors.length = i % colors.length :=
    Nat.add_mul_mod_self_right i n colors.length
  have hget : ∀ (j k : Nat) (hj : j < colors.length) (hk : k < colors.length),
      j = k → colors.get ⟨j, hj⟩ = colors.get ⟨k, hk⟩ := by
    intro j k hj hk hjk
    subst hjk
    rfl
  unfold ColorPalette.get_color
  rw [dif_neg hL, dif_neg hL]
  exact (hget _ _ _ _ hmod.symm)

theorem palette_get_color_cyclic_witness :
    ([Color.new 10 20 30, Color.new 40 50 60] ≠ []) ∧
    (ColorPalette.mk [Color.new 10 20 30, Color.new 40 50 60]).get_color 1 =
      (ColorPalette.mk [Color.new 10 20 30, Color.new 40 50 60]).get_color
        (1 + 3 * [Color.new 10 20 30, Color.new 40 50 60].length) :=
  ⟨by decide, palette_get_color_cyclic [Color.new 10 20 30, Color.new 40 50 60] 1 3 (by decide)⟩

/-- C10: get_color on an empty palette never fails: it returns white
(255, 255, 255) for every index. -/
theorem empty_palette_get_color_white (i : Nat) :
    (ColorPalette.mk []).get_color i = Color.new 255 255 255 := rfl

theorem flatten_replicate_replicate (m n : Nat) (a : Char) :
    (List.replicate m (List.replicate n a)).flatten = List.replicate (m * n) a := by
  induction m with
  | zero => simp
  | succ m ih =>
    simp only [List.replicate_succ, List.flatten_cons, ih]
    rw [← List.replicate_add]
    congr 1
    ring

/-- C1 counterexample: on the two-line art ["ab", "cd"] the claim says
apply_fade(0.0) is a blank block with the art's line count (2), but the
code returns " ".repeat(width).repeat(height) — a single line of
width*height spaces with no newline, so the rendered output has 1 line. -/
theorem apply_fade_zero_not_same_height :
    ((splitOnChar '\n'
        ((AsciiArt.mk [['a', 'b'], ['c', 'd']]).apply_fade 0)).length =
      (AsciiArt.mk [['a', 'b'], ['c', 'd']]).height) = False := by
  decide

/-- C1 amended: apply_fade(1.0) reproduces the original rendered text
exactly, and apply_fade(0.0) returns a single all-blank line of
width*height space characters (the total area of the block) containing no
newline — not a multi-line block of the original height. -/
theorem apply_fade_extremes (art : AsciiArt) :
    art.apply_fade 1 = art.render ∧
    art.apply_fade 0 = List.replicate (art.height * art.width) ' ' ∧
    (∀ c ∈ art.apply_fade 0, c = ' ') ∧
    (art.apply_fade 0).length = art.height * art.width ∧
    '\n' ∉ art.apply_fade 0 := by
  have h1 : art.apply_fade 1 = art.render := by
    unfold AsciiArt.apply_fade
    rw [if_pos le_rfl]
  have h0 : art.apply_fade 0 = List.replicate (art.height * art.width) ' ' := by
    unfold AsciiArt.apply_fade
    rw [if_neg (by norm_num), if_pos le_rfl]
    exact flatten_replicate_replicate _ _ _
  refine ⟨h1, h0, ?_, ?_, ?_⟩
  · intro c hc
    rw [h0] at hc
    exact (List.eq_of_mem_replicate hc)
  · rw [h0, List.length_replicate]
  · rw [h0]
    intro hc
    have := List.eq_of_mem_replicate hc
    simp at this

theorem renderLoop_no_cancel (ease : ℚ → ℚ) :
    ∀ m (k : Nat) (t : Timeline) (paints : List (ℚ × ℚ)),
      t.total_frames - t.current_frame = m →
      t.current_frame ≤ t.total_frames →
      (renderLoop (fun _ => false) ease k t paints).1 = false ∧
      (renderLoop (fun _ => false) ease k t paints).2.length =
        paints.length + (t.total_frames - t.current_frame) + 1 ∧
      (renderLoop (fun _ => false) ease k t paints).2.getLast? =
        some (1, ease 1) := by
  intro m
  induction m with
  | zero =>
    intro k t paints hm hle
    have hcur : t.current_frame = t.total_frames := by omega
    have hcomp : t.is_complete = true := by
      unfold Timeline.is_complete
      simp
      omega
    have hprog : t.progress = 1 := by
      unfold Timeline.progress
      by_cases hT : t.total_frames = 0
      · rw [if_pos hT]
      · have hTpos : (0 : ℚ) < (t.total_frames : ℚ) := by
          exact_mod_cast Nat.pos_of_ne_zero hT
        rw [if_neg hT, hcur, div_self (ne_of_gt hTpos), min_self]
    rw [renderLoop.eq_def]
    simp [hcomp, hprog, hm, List.getLast?_concat]
  | succ m ih =>
    intro k t paints hm hle
    have hcomp : t.is_complete = false := by
      unfold Timeline.is_complete
      simp
      omega
    have hnext : (t.next_frame).1 = { t with current_frame := t.current_frame + 1 } := by
      simp [Timeline.next_frame, hcomp]
    have hm' : ((t.next_frame).1).total_frames - ((t.next_frame).1).current_frame = m := by
      rw [hnext]
      simp
      omega
    have hle' : ((t.next_frame).1).current_frame ≤ ((t.next_frame).1).total_frames := by
      rw [hnext]
      simp
      omega
    have hrec := ih (k + 4) (t.next_frame).1
      (paints ++ [(t.progress, ease t.progress)]) hm' hle'
    rw [renderLoop.eq_def]
    simp only [Bool.false_eq_true, if_neg, not_false_iff, hcomp]
    refine ⟨hrec.1, ?_, hrec.2.2⟩
    rw [hrec.2.1, hnext]
    simp
    omega

/-- C2: in the modelled render loop the completion check happens only
after the tick's frame has been painted, so a run that is never cancelled
paints total_frames + 1 frames (progress 0 up to and including 1), the
last painted frame has linear progress exactly 1, and the loop returns
the natural-completion value false; a run whose cancellation flag is
already set returns the distinct user-cancellation value true having
painted nothing.  Both values are payloads of the Rust function's Ok
result: cancellation is a successful outcome, not an error. -/
theorem renderer_loop_completion_semantics (d fps : Nat) (ease : ℚ → ℚ) :
    (renderLoop (fun _ => false) ease 0 (Timeline.new d fps) []).1 = false ∧
    (renderLoop (fun _ => false) ease 0 (Timeline.new d fps) []).2.length =
      (Timeline.new d fps).total_frames + 1 ∧
    (renderLoop (fun _ => false) ease 0 (Timeline.new d fps) []).2.getLast? =
      some (1, ease 1) ∧
    renderLoop (fun _ => true) ease 0 (Timeline.new d fps) [] = (true, []) := by
  have hcur : (Timeline.new d fps).current_frame = 0 := rfl
  have h := renderLoop_no_cancel ease
    ((Timeline.new d fps).total_frames - (Timeline.new d fps).current_frame)
    0 (Timeline.new d fps) [] rfl (by omega)
  refine ⟨h.1, ?_, h.2.2, ?_⟩
  · rw [h.2.1, hcur]
    simp
  · rw [renderLoop.eq_def]
    simp

/-- C4 counterexample: for the gradient with stops (red at 0.5) and
(blue at 1.0), t = 0 clamps to 0 which lies below every bracketed range;
the claim says the nearest endpoint stop's color (red, at position 0.5)
is returned, but the code's fall-through returns the last stop's color
(blue). -/
theorem gradient_color_at_below_range_returns_last :
    (Gradient.mk [ColorStop.mk (Color.new 255 0 0) (1/2),
        ColorStop.mk (Color.new 0 0 255) 1] 180).color_at 0 =
      Color.new 0 0 255 ∧
    Color.new 0 0 255 ≠ Color.new 255 0 0 := by
  constructor
  · decide
  · decide

theorem scanStops_no_bracket (t : ℚ) :
    ∀ stops : List ColorStop, stops ≠ [] →
      (∀ p ∈ stops.zip stops.tail,
        ¬((p.1).position ≤ t ∧ t ≤ (p.2).position)) →
      ∃ s, stops.getLast? = some s ∧ scanStops stops t = s.color := by
  intro stops
  induction stops with
  | nil => intro h; exact absurd rfl h
  | cons s1 rest ih =>
    intro _ hnb
    cases rest with
    | nil => exact ⟨s1, rfl, rfl⟩
    | cons s2 rest2 =>
      have hpair : ¬(s1.position ≤ t ∧ t ≤ s2.position) := by
        apply hnb (s1, s2)
        simp
      have hsub : ∀ p : ColorStop × ColorStop,
          p ∈ (s2 :: rest2).zip rest2 → p ∈ (s1 :: s2 :: rest2).zip (s2 :: rest2) := by
        intro p hp
        rw [List.zip_cons_cons]
        exact List.mem_cons_of_mem _ hp
      obtain ⟨s, hlast, hscan⟩ := ih (by simp)
        (by
          intro p hp
          apply hnb p
          simpa using hsub p (by simpa using hp))
      refine ⟨s, ?_, ?_⟩
      · rw [List.getLast?_cons_cons]
        exact hlast
      · rw [scanStops, if_neg hpair]
        exact hscan

/-- C4 amended: color_at clamps t to [0,1]; between two bracketing stops
(first bracketing pair of the scan, strictly increasing positions) it
linearly interpolates the RGB channels; a non-bracketing head pair is
skipped; a single stop returns its own color for every t; and when the
clamped t lies outside every bracketed range the LAST stop's color is
returned — which for t above the range is the nearest endpoint, but for
t below the first stop's position is the far endpoint, not the nearest. -/
theorem gradient_color_at_characterization :
    (∀ (g : Gradient) (t : ℚ),
      g.color_at t = g.color_at (clamp01 t)) ∧
    (∀ (c1 c2 : Color) (p1 p2 a t : ℚ) (rest : List ColorStop),
      p1 ≤ clamp01 t → clamp01 t ≤ p2 → p1 < p2 →
      (Gradient.mk (ColorStop.mk c1 p1 :: ColorStop.mk c2 p2 :: rest) a).color_at t =
        c1.interpolate c2 ((clamp01 t - p1) / (p2 - p1))) ∧
    (∀ (s1 s2 : ColorStop) (a t : ℚ) (rest : List ColorStop),
      ¬(s1.position ≤ clamp01 t ∧ clamp01 t ≤ s2.position) →
      (Gradient.mk (s1 :: s2 :: rest) a).color_at t =
        (Gradient.mk (s2 :: rest) a).color_at t) ∧
    (∀ (s : ColorStop) (a t : ℚ), (Gradient.mk [s] a).color_at t = s.color) ∧
    (∀ (stops : List ColorStop) (a t : ℚ), stops ≠ [] →
      (∀ p ∈ stops.zip stops.tail,
        ¬((p.1).position ≤ clamp01 t ∧ clamp01 t ≤ (p.2).position)) →
      ∃ s, stops.getLast? = some s ∧
        (Gradient.mk stops a).color_at t = s.color) := by
  have hidem : ∀ t : ℚ, clamp01 (clamp01 t) = clamp01 t := by
    intro t
    unfold clamp01
    split_ifs <;> linarith
  refine ⟨?_, ?_, ?_, ?_, ?_⟩
  · intro g t
    obtain ⟨stops, a⟩ := g
    cases stops with
    | nil => rfl
    | cons s1 rest =>
      cases rest with
      | nil => rfl
      | cons s2 rest2 =>
        show scanStops (s1 :: s2 :: rest2) (clamp01 t) =
          scanStops (s1 :: s2 :: rest2) (clamp01 (clamp01 t))
        rw [hidem]
  · intro c1 c2 p1 p2 a t rest h1 h2 hlt
    show scanStops (ColorStop.mk c1 p1 :: ColorStop.mk c2 p2 :: rest) (clamp01 t) = _
    rw [scanStops, if_pos ⟨h1, h2⟩]
  · intro s1 s2 a t rest hnb
    show scanStops (s1 :: s2 :: rest) (clamp01 t) = _
    rw [scanStops, if_neg hnb]
    cases rest with
    | nil => rfl
    | cons s3 rest3 => rfl
  · intro s a t
    rfl
  · intro stops a t hne hnb
    match stops with
    | [] => exact absurd rfl hne
    | [s] => exact ⟨s, rfl, rfl⟩
    | s1 :: s2 :: rest =>
      obtain ⟨s, hlast, hscan⟩ :=
        scanStops_no_bracket (clamp01 t) (s1 :: s2 :: rest) (by simp) hnb
      exact ⟨s, hlast, hscan⟩

/-- C9: parsing "linear-gradient(red, blue)" succeeds and querying the
result round-trips the endpoints: color_at(0.0) is red, color_at(1.0) is
blue, and every RGB channel of color_at(0.5) lies strictly between the
corresponding endpoint channels whenever those two differ. -/
theorem gradient_parse_red_blue_round_trip :
    ∃ g : Gradient,
      Gradient.parse ("linear-gradient(red, blue)".toList) = Except.ok g ∧
      g.color_at 0 = Color.new 255 0 0 ∧
      g.color_at 1 = Color.new 0 0 255 ∧
      ((g.color_at 0).r ≠ (g.color_at 1).r →
        Nat.min ((g.color_at 0).r) ((g.color_at 1).r) < (g.color_at (1/2)).r ∧
        (g.color_at (1/2)).r < Nat.max ((g.color_at 0).r) ((g.color_at 1).r)) ∧
      ((g.color_at 0).g ≠ (g.color_at 1).g →
        Nat.min ((g.color_at 0).g) ((g.color_at 1).g) < (g.color_at (1/2)).g ∧
        (g.color_at (1/2)).g < Nat.max ((g.color_at 0).g) ((g.color_at 1).g)) ∧
      ((g.color_at 0).b ≠ (g.color_at 1).b →
        Nat.min ((g.color_at 0).b) ((g.color_at 1).b) < (g.color_at (1/2)).b ∧
        (g.color_at (1/2)).b < Nat.max ((g.color_at 0).b) ((g.color_at 1).b)) := by
  exact ⟨Gradient.mk [ColorStop.mk (Color.new 255 0 0) 0,
    ColorStop.mk (Color.new 0 0 255) 1] 180, by rfl, by decide, by decide,
    by decide, by decide, by decide⟩

theorem mem_rowPosFrom (y : Nat) :
    ∀ (l : List Char) (x0 x y' : Nat) (ch : Char),
      ((x, y', ch) ∈ rowPosFrom y x0 l ↔
        (y' = y ∧ ∃ j, x = x0 + j ∧ l.get? j = some ch ∧
          charIsWhitespace ch = false)) := by
  intro l
  induction l with
  | nil => intro x0 x y' ch; simp [rowPosFrom]
  | cons c cs ih =>
    intro x0 x y' ch
    by_cases hws : charIsWhitespace c
    · have hrw : rowPosFrom y x0 (c :: cs) = rowPosFrom y (x0 + 1) cs := by
        rw [rowPosFrom, if_pos hws]
      rw [hrw, ih (x0 + 1)]
      constructor
      · rintro ⟨rfl, j, rfl, hget, hf⟩
        exact ⟨rfl, j + 1, by omega, by simpa using hget, hf⟩
      · rintro ⟨rfl, j, rfl, hget, hf⟩
        cases j with
        | zero =>
          exfalso
          have hc : c = ch := by simpa using hget
          subst hc
          rw [hws] at hf
          simp at hf
        | succ j' =>
          exact ⟨rfl, j', by omega, by simpa using hget, hf⟩
    · have hws' : charIsWhitespace c = false := by simpa using hws
      have hrw : rowPosFrom y x0 (c :: cs) = (x0, y, c) :: rowPosFrom y (x0 + 1) cs := by
        rw [rowPosFrom, if_neg hws]
      rw [hrw]
      constructor
      · intro hmem
        rcases List.mem_cons.mp hmem with heq | htail
        · have h3 : x = x0 ∧ y' = y ∧ ch = c := by
            simpa [Prod.ext_iff] using heq
          obtain ⟨rfl, rfl, rfl⟩ := h3
          exact ⟨rfl, 0, by omega, by simp, hws'⟩
        · obtain ⟨h1, j, h2, hget, hf⟩ := (ih (x0 + 1) x y' ch).mp htail
          exact ⟨h1, j + 1, by omega, by simpa using hget, hf⟩
      · rintro ⟨rfl, j, rfl, hget, hf⟩
        cases j with
        | zero =>
          have hc : c = ch := by simpa using hget
          subst hc
          simp only [Nat.add_zero]
          exact List.mem_cons_self _ _
        | succ j' =>
          apply List.mem_cons_of_mem
          exact (ih (x0 + 1) (x0 + (j' + 1)) _ ch).mpr
            ⟨rfl, j', by omega, by simpa using hget, hf⟩

theorem mem_charPositionsFrom :
    ∀ (ls : List (List Char)) (y0 x y : Nat) (ch : Char),
      ((x, y, ch) ∈ charPositionsFrom y0 ls ↔
        ∃ j line, y = y0 + j ∧ ls.get? j = some line ∧ line.get? x = some ch ∧
          charIsWhitespace ch = false) := by
  intro ls
  induction ls with
  | nil => intro y0 x y ch; simp [charPositionsFrom]
  | cons line rest ih =>
    intro y0 x y ch
    simp only [charPositionsFrom, List.mem_append]
    rw [mem_rowPosFrom y0 line 0, ih (y0 + 1)]
    constructor
    · rintro (⟨rfl, j, rfl, hget, hf⟩ | ⟨j, line', rfl, hget, hgx, hf⟩)
      · exact ⟨0, line, by omega, by simp, by simpa using hget, hf⟩
      · exact ⟨j + 1, line', by omega, by simpa using hget, hgx, hf⟩
    · rintro ⟨j, line', rfl, hget, hgx, hf⟩
      cases j with
      | zero =>
        left
        have hl : line = line' := by simpa using hget
        subst hl
        exact ⟨by omega, x, by omega, hgx, hf⟩
      | succ j' =>
        right
        exact ⟨j', line', by omega, by simpa using hget, hgx, hf⟩

theorem pairwise_rowPosFrom (y : Nat) :
    ∀ (l : List Char) (x0 : Nat), List.Pairwise rowMajorLt (rowPosFrom y x0 l) := by
  intro l
  induction l with
  | nil => intro x0; simp [rowPosFrom]
  | cons c cs ih =>
    intro x0
    by_cases hws : charIsWhitespace c
    · rw [rowPosFrom, if_pos hws]
      exact ih (x0 + 1)
    · rw [rowPosFrom, if_neg hws]
      refine List.Pairwise.cons ?_ (ih (x0 + 1))
      intro b hb
      obtain ⟨bx, b2⟩ := b
      obtain ⟨byy, bc⟩ := b2
      obtain ⟨rfl, j, rfl, hget, hf⟩ := (mem_rowPosFrom y cs (x0 + 1) bx byy bc).mp hb
      right
      exact ⟨rfl, by omega⟩

theorem pairwise_charPositionsFrom :
    ∀ (ls : List (List Char)) (y0 : Nat),
      List.Pairwise rowMajorLt (charPositionsFrom y0 ls) := by
  intro ls
  induction ls with
  | nil => intro y0; simp [charPositionsFrom]
  | cons line rest ih =>
    intro y0
    rw [charPositionsFrom, List.pairwise_append]
    refine ⟨pairwise_rowPosFrom y0 line 0, ih (y0 + 1), ?_⟩
    intro a ha b hb
    obtain ⟨ax, a2⟩ := a
    obtain ⟨ay, ac⟩ := a2
    obtain ⟨bx, b2⟩ := b
    obtain ⟨byy, bc⟩ := b2
    obtain ⟨hay, _, _, _, _⟩ := (mem_rowPosFrom y0 line 0 ax ay ac).mp ha
    obtain ⟨j, line', hby, _, _, _⟩ :=
      (mem_charPositionsFrom rest (y0 + 1) bx byy bc).mp hb
    left
    simp
    omega

theorem length_rowPosFrom (y : Nat) :
    ∀ (l : List Char) (x0 : Nat),
      (rowPosFrom y x0 l).length =
        (l.filter (fun c => !charIsWhitespace c)).length := by
  intro l
  induction l with
  | nil => intro x0; rfl
  | cons c cs ih =>
    intro x0
    by_cases hws : charIsWhitespace c
    · rw [rowPosFrom, if_pos hws]
      simp [List.filter_cons, hws, ih (x0 + 1)]
    · rw [rowPosFrom, if_neg hws]
      have hws' : charIsWhitespace c = false := by simpa using hws
      simp [List.filter_cons, hws', ih (x0 + 1)]

theorem length_charPositionsFrom :
    ∀ (ls : List (List Char)) (y0 : Nat),
      (charPositionsFrom y0 ls).length =
        (ls.flatten.filter (fun c => !charIsWhitespace c)).length := by
  intro ls
  induction ls with
  | nil => intro y0; rfl
  | cons line rest ih =>
    intro y0
    rw [charPositionsFrom]
    simp [List.filter_append, length_rowPosFrom y0 line 0, ih (y0 + 1)]

theorem length_setCell :
    ∀ (g : List (List Char)) (x y : Nat) (ch : Char),
      (setCell g x y ch).length = g.length := by
  intro g
  induction g with
  | nil => intro x y ch; rfl
  | cons line rest ih =>
    intro x y ch
    cases y with
    | zero => simp [setCell]
    | succ y' => simp [setCell, ih]

theorem rowlen_setCell :
    ∀ (g : List (List Char)) (x y : Nat) (ch : Char) (y' : Nat),
      ((setCell g x y ch).get? y').map List.length = (g.get? y').map List.length := by
  intro g
  induction g with
  | nil => intro x y ch y'; rfl
  | cons line rest ih =>
    intro x y ch y'
    cases y with
    | zero =>
      cases y' with
      | zero => simp [setCell]
      | succ y'' => simp [setCell]
    | succ yy =>
      cases y' with
      | zero => simp [setCell]
      | succ y'' => simpa [setCell] using ih x yy ch y''

theorem cellAt_setCell_ne :
    ∀ (g : List (List Char)) (x y : Nat) (ch : Char) (x' y' : Nat),
      (y' ≠ y ∨ x' ≠ x) →
      cellAt (setCell g x y ch) x' y' = cellAt g x' y' := by
  intro g
  induction g with
  | nil => intro x y ch x' y' h; rfl
  | cons line rest ih =>
    intro x y ch x' y' h
    cases y with
    | zero =>
      cases y' with
      | zero =>
        rcases h with h | h
        · exact absurd rfl h
        · simp only [setCell, cellAt, List.get?]
          simp
          exact List.getElem?_set_ne (Ne.symm h)
      | succ y'' => simp [setCell, cellAt]
    | succ yy =>
      cases y' with
      | zero => simp [setCell, cellAt]
      | succ y'' =>
        have h' : y'' ≠ yy ∨ x' ≠ x := by
          rcases h with h | h
          · left; omega
          · right; exact h
        simpa [setCell, cellAt] using ih x yy ch x' y'' h'

theorem cellAt_setCell_eq :
    ∀ (g : List (List Char)) (x y : Nat) (ch : Char) (line : List Char),
      g.get? y = some line → x < line.length →
      cellAt (setCell g x y ch) x y = some ch := by
  intro g
  induction g with
  | nil => intro x y ch line hget; simp at hget
  | cons l rest ih =>
    intro x y ch line hget hx
    cases y with
    | zero =>
      have hl : l = line := by simpa using hget
      subst hl
      simp only [setCell, cellAt, List.get?]
      simp
      exact List.getElem?_set_eq_of_lt ch hx
    | succ yy =>
      have hget' : rest.get? yy = some line := by simpa using hget
      simpa [setCell, cellAt] using ih x yy ch line hget' hx

theorem length_writeVisible (v : Nat) :
    ∀ (ps : List (Nat × Nat × Char)) (i : Nat) (g : List (List Char)),
      (writeVisible v i ps g).length = g.length := by
  intro ps
  induction ps with
  | nil => intro i g; rfl
  | cons a ps ih =>
    intro i g
    obtain ⟨x, y, ch⟩ := a
    rw [writeVisible, ih]
    split
    · exact length_setCell g x y ch
    · rfl

theorem rowlen_writeVisible (v : Nat) :
    ∀ (ps : List (Nat × Nat × Char)) (i : Nat) (g : List (List Char)) (y' : Nat),
      ((writeVisible v i ps g).get? y').map List.length =
        (g.get? y').map List.length := by
  intro ps
  induction ps with
  | nil => intro i g y'; rfl
  | cons a ps ih =>
    intro i g y'
    obtain ⟨x, y, ch⟩ := a
    rw [writeVisible, ih]
    split
    · exact rowlen_setCell g x y ch y'
    · rfl

theorem cellAt_writeVisible_not_mem (v : Nat) :
    ∀ (ps : List (Nat × Nat × Char)) (i : Nat) (g : List (List Char)) (x y : Nat),
      (∀ ch, (x, y, ch) ∉ ps) →
      cellAt (writeVisible v i ps g) x y = cellAt g x y := by
  intro ps
  induction ps with
  | nil => intro i g x y hnot; rfl
  | cons a ps ih =>
    intro i g x y hnot
    obtain ⟨xa, ya, cha⟩ := a
    have htail : ∀ ch, (x, y, ch) ∉ ps := by
      intro ch hm
      exact hnot ch (List.mem_cons_of_mem _ hm)
    have hne : y ≠ ya ∨ x ≠ xa := by
      by_contra hc
      push_neg at hc
      refine hnot cha ?_
      rw [hc.1, hc.2]
      exact List.mem_cons_self _ _
    rw [writeVisible, ih (i + 1) _ x y htail]
    split
    · exact cellAt_setCell_ne g xa ya cha x y hne
    · rfl

theorem cellAt_writeVisible_get (v : Nat) :
    ∀ (ps : List (Nat × Nat × Char)) (i : Nat) (g : List (List Char))
      (k x y : Nat) (ch : Char) (line : List Char),
      List.Pairwise coordNe ps → ps.get? k = some (x, y, ch) →
      g.get? y = some line → x < line.length →
      cellAt (writeVisible v i ps g) x y =
        if i + k < v then some ch else cellAt g x y := by
  intro ps
  induction ps with
  | nil => intro i g k x y ch line _ hk; simp at hk
  | cons a ps ih =>
    intro i g k x y ch line hpw hk hg hx
    obtain ⟨xa, ya, cha⟩ := a
    obtain ⟨hhead, htailpw⟩ := List.pairwise_cons.mp hpw
    cases k with
    | zero =>
      have htrip : xa = x ∧ ya = y ∧ cha = ch := by
        have := hk
        simp [Prod.ext_iff] at this
        exact this
      obtain ⟨rfl, rfl, rfl⟩ := htrip
      have hnot : ∀ ch', (xa, ya, ch') ∉ ps := by
        intro ch' hm
        have hcn := hhead _ hm
        simp only [coordNe] at hcn
        rcases hcn with h | h <;> simp at h
      rw [writeVisible, cellAt_writeVisible_not_mem v ps (i + 1) _ xa ya hnot]
      by_cases hiv : i < v
      · rw [if_pos hiv, if_pos (by omega)]
        exact cellAt_setCell_eq g xa ya cha line hg hx
      · rw [if_neg hiv, if_neg (by omega)]
    | succ k' =>
      have hk' : ps.get? k' = some (x, y, ch) := by simpa using hk
      have hmem : (x, y, ch) ∈ ps := List.get?_mem hk'
      have hcn := hhead _ hmem
      simp only [coordNe] at hcn
      have hne : y ≠ ya ∨ x ≠ xa := by
        rcases hcn with h | h
        · right; exact fun e => h e.symm
        · left; exact fun e => h e.symm
      rw [writeVisible]
      by_cases hiv : i < v
      · rw [if_pos hiv]
        have hmap := rowlen_setCell g xa ya cha y
        rw [hg] at hmap
        obtain ⟨line', hg', hlen⟩ :
            ∃ line', (setCell g xa ya cha).get? y = some line' ∧
              line'.length = line.length := by
          cases hgy : (setCell g xa ya cha).get? y with
          | none => rw [hgy] at hmap; simp at hmap
          | some l' =>
            rw [hgy] at hmap
            simp at hmap
            exact ⟨l', rfl, hmap⟩
        rw [ih (i + 1) _ k' x y ch line' htailpw hk' hg' (by omega)]
        have harith : i + 1 + k' = i + (k' + 1) := by omega
        rw [harith]
        by_cases hv2 : i + (k' + 1) < v
        · rw [if_pos hv2, if_pos hv2]
        · rw [if_neg hv2, if_neg hv2]
          exact cellAt_setCell_ne g xa ya cha x y hne
      · rw [if_neg hiv]
        rw [ih (i + 1) _ k' x y ch line htailpw hk' hg hx]
        have harith : i + 1 + k' = i + (k' + 1) := by omega
        rw [harith]

theorem cellAt_blankGrid (lines : List (List Char)) (x y : Nat) :
    cellAt (blankGrid lines) x y =
      (cellAt lines x y).map (fun c => if charIsWhitespace c then c else ' ') := by
  unfold cellAt blankGrid
  rw [List.get?_map]
  cases hl : lines.get? y with
  | none => simp
  | some l => simp [List.get?_map]

theorem rowlen_blankGrid (lines : List (List Char)) (y : Nat) :
    ((blankGrid lines).get? y).map List.length = (lines.get? y).map List.length := by
  unfold blankGrid
  rw [List.get?_map]
  cases hl : lines.get? y with
  | none => simp
  | some l => simp

/-- C6: for every art and progress, char_positions is strictly
row-major-ordered and holds exactly the non-whitespace cells with their
original glyphs; the typewriter canvas keeps the grid's shape, shows the
position at scan index k exactly when k < floor(char_count * progress)
(the later non-whitespace cells render as blank), and preserves every
whitespace cell as-is. -/
theorem typewriter_reveals_row_major_prefix (art : AsciiArt) (progress : ℚ) :
    (Typewriter.applyLines art progress).length = art.lines.length ∧
    (∀ y : Nat, ((Typewriter.applyLines art progress).get? y).map List.length =
      (art.lines.get? y).map List.length) ∧
    List.Pairwise rowMajorLt art.char_positions ∧
    (∀ (x y : Nat) (ch : Char), ((x, y, ch) ∈ art.char_positions ↔
      (cellAt art.lines x y = some ch ∧ charIsWhitespace ch = false))) ∧
    art.char_positions.length = art.char_count ∧
    (∀ (k x y : Nat) (ch : Char),
      art.char_positions.get? k = some (x, y, ch) →
      cellAt (Typewriter.applyLines art progress) x y =
        some (if k < (Int.floor ((art.char_count : ℚ) * progress)).toNat
          then ch else ' ')) ∧
    (∀ (x y : Nat) (ch : Char), cellAt art.lines x y = some ch →
      charIsWhitespace ch = true →
      cellAt (Typewriter.applyLines art progress) x y = some ch) := by
  have hdef : Typewriter.applyLines art progress =
      writeVisible ((Int.floor ((art.char_count : ℚ) * progress)).toNat) 0
        art.char_positions (blankGrid art.lines) := rfl
  have hD : ∀ (x y : Nat) (ch : Char), ((x, y, ch) ∈ art.char_positions ↔
      (cellAt art.lines x y = some ch ∧ charIsWhitespace ch = false)) := by
    intro x y ch
    rw [AsciiArt.char_positions, mem_charPositionsFrom]
    constructor
    · rintro ⟨j, line, hy, hget, hgx, hf⟩
      have hy' : y = j := by omega
      subst hy'
      refine ⟨?_, hf⟩
      unfold cellAt
      rw [hget]
      simpa using hgx
    · rintro ⟨hcell, hf⟩
      unfold cellAt at hcell
      cases hget : art.lines.get? y with
      | none => rw [hget] at hcell; simp at hcell
      | some line =>
        rw [hget] at hcell
        simp at hcell
        rw [← List.get?_eq_getElem?] at hcell
        exact ⟨y, line, by omega, hget, hcell, hf⟩
  have hpw : List.Pairwise coordNe art.char_positions := by
    refine List.Pairwise.imp ?_ (pairwise_charPositionsFrom art.lines 0)
    intro a b h
    simp only [rowMajorLt, coordNe] at h ⊢
    rcases h with h | ⟨he, hx⟩
    · exact Or.inr (Nat.ne_of_lt h)
    · exact Or.inl (Nat.ne_of_lt hx)
  refine ⟨?_, ?_, pairwise_charPositionsFrom art.lines 0, hD, ?_, ?_, ?_⟩
  · rw [hdef, length_writeVisible]
    unfold blankGrid
    rw [List.length_map]
  · intro y
    rw [hdef, rowlen_writeVisible, rowlen_blankGrid]
  · rw [AsciiArt.char_positions, length_charPositionsFrom]
    rfl
  · intro k x y ch hk
    have hmem : (x, y, ch) ∈ art.char_positions := List.get?_mem hk
    obtain ⟨hcell, hf⟩ := (hD x y ch).mp hmem
    unfold cellAt at hcell
    cases hget : art.lines.get? y with
    | none => rw [hget] at hcell; simp at hcell
    | some line =>
      rw [hget] at hcell
      simp at hcell
      rw [← List.get?_eq_getElem?] at hcell
      have hxlt : x < line.length := by
        by_contra hge
        push_neg at hge
        rw [List.get?_eq_none.mpr hge] at hcell
        exact Option.noConfusion hcell
      have hbg : (blankGrid art.lines).get? y =
          some (line.map (fun c => if charIsWhitespace c then c else ' ')) := by
        unfold blankGrid
        rw [List.get?_map, hget]
        rfl
      rw [hdef, cellAt_writeVisible_get _ _ 0 _ k x y ch _ hpw hk hbg
        (by rw [List.length_map]; exact hxlt)]
      rw [Nat.zero_add]
      by_cases hkv : k < (Int.floor ((art.char_count : ℚ) * progress)).toNat
      · rw [if_pos hkv, if_pos hkv]
      · rw [if_neg hkv, if_neg hkv, cellAt_blankGrid]
        unfold cellAt
        rw [hget]
        simp [hcell, hf]
        refine ⟨ch, ?_, ?_⟩
        · rw [← List.get?_eq_getElem?]
          exact hcell
        · intro hws2
          rw [hws2] at hf
          exact absurd hf (by simp)
  · intro x y ch hcell hws
    have hnot : ∀ ch', (x, y, ch') ∉ art.char_positions := by
      intro ch' hm
      obtain ⟨hcell', hf'⟩ := (hD x y ch').mp hm
      rw [hcell] at hcell'
      have : ch = ch' := by simpa using hcell'
      subst this
      rw [hws] at hf'
      simp at hf'
    rw [hdef, cellAt_writeVisible_not_mem _ _ 0 _ x y hnot, cellAt_blankGrid, hcell]
    simp [hws]

theorem natLog2Fuel_le :
    ∀ (fuel n : Nat), 1 ≤ n → n ≤ fuel → 2 ^ natLog2Fuel fuel n ≤ n := by
  intro fuel
  induction fuel with
  | zero => intro n h1 h2; omega
  | succ fuel ih =>
    intro n h1 h2
    rw [natLog2Fuel]
    by_cases hn : 2 ≤ n
    · rw [if_pos hn]
      have hrec := ih (n / 2) (by omega) (by omega)
      calc 2 ^ (natLog2Fuel fuel (n / 2) + 1)
          = 2 * 2 ^ natLog2Fuel fuel (n / 2) := by ring
        _ ≤ 2 * (n / 2) := by omega
        _ ≤ n := by omega
    · rw [if_neg hn]
      simpa using h1

theorem two_pow_natLog2_le (n : Nat) (h : 1 ≤ n) : 2 ^ natLog2 n ≤ n :=
  natLog2Fuel_le n n h le_rfl

theorem roundHalfEven_intCast (n : Int) : roundHalfEven (n : ℚ) = n := by
  unfold roundHalfEven
  rw [Int.floor_intCast, sub_self, if_pos (by norm_num)]

theorem qpow2_ofNat (n : Nat) : qpow2 (n : Int) = (2 : ℚ) ^ n := by
  unfold qpow2
  rw [if_pos (Int.natCast_nonneg n), Int.toNat_natCast]

theorem ratFloorLog2_natCast_le (m : Nat) (h1 : 1 ≤ m) (h2 : m < 2 ^ 53) :
    ratFloorLog2 (m : ℚ) ≤ 52 := by
  have hlog : natLog2 m ≤ 52 := by
    by_contra hgt
    push_neg at hgt
    have hle := two_pow_natLog2_le m h1
    have : 2 ^ 53 ≤ m :=
      le_trans (Nat.pow_le_pow_right (by norm_num) hgt) hle
    omega
  have hone : natLog2 1 = 0 := rfl
  have hcand : ((natLog2 ((m : ℚ)).num.toNat : Int) -
      (natLog2 ((m : ℚ)).den : Int)) = (natLog2 m : Int) := by
    rw [Rat.num_natCast, Rat.den_natCast, Int.toNat_natCast, hone]
    simp
  simp only [ratFloorLog2]
  rw [hcand]
  split_ifs with ha hb
  · omega
  · by_contra hc
    push_neg at hc
    have h52 : natLog2 m = 52 := by omega
    rw [h52] at hb
    have hq : qpow2 (((52 : Nat) : Int) + 1) = (2 : ℚ) ^ 53 := by
      have he : ((52 : Nat) : Int) + 1 = ((53 : Nat) : Int) := by norm_num
      rw [he, qpow2_ofNat]
    rw [hq] at hb
    have hnat : 2 ^ 53 ≤ m := by exact_mod_cast hb
    omega
  · omega

theorem f64round_natCast (m : Nat) (h : m < 2 ^ 53) : f64round (m : ℚ) = m := by
  rcases Nat.eq_zero_or_pos m with rfl | hpos
  · simp [f64round]
  · have hne : ((m : ℚ)) ≠ 0 := Nat.cast_ne_zero.mpr (by omega)
    have hnneg : ¬ ((m : ℚ) < 0) := not_lt.mpr (by positivity)
    rw [f64round, if_neg hne, if_neg hnneg]
    have hk := ratFloorLog2_natCast_le m hpos h
    simp only [f64roundPos]
    by_cases hbr : 52 ≤ ratFloorLog2 (m : ℚ)
    · have hk52 : ratFloorLog2 (m : ℚ) = 52 := le_antisymm hk hbr
      rw [if_pos hbr, hk52]
      have h0 : ((52 : Int) - 52).toNat = 0 := by norm_num
      rw [h0, pow_zero, div_one, mul_one]
      rw [show ((m : ℚ)) = ((m : Int) : ℚ) from (Int.cast_natCast m).symm,
        roundHalfEven_intCast]
    · rw [if_neg hbr]
      have hy : (m : ℚ) * (2 : ℚ) ^ (52 - ratFloorLog2 (m : ℚ)).toNat =
          (((m * 2 ^ (52 - ratFloorLog2 (m : ℚ)).toNat : Nat) : Int) : ℚ) := by
        push_cast
        ring
      rw [hy, roundHalfEven_intCast]
      have hpow : ((2 : ℚ) ^ (52 - ratFloorLog2 (m : ℚ)).toNat) ≠ 0 := by positivity
      push_cast
      field_simp

/-- C5 counterexample: the program computes total_frames through two f64
roundings, and at duration_ms = 2007, fps = 1000 the rounding error of
2007/1000 is amplified back over an integer: the f64 product is just
above 2007, its ceiling is 2008, while the exact ceiling
ceil(2007 * 1000 / 1000) is 2007. -/
theorem timeline_new_float_excess :
    (Timeline.new 2007 1000).total_frames = 2008 ∧
    (2007 * 1000 + 999) / 1000 = 2007 ∧
    (Timeline.new 2007 1000).total_frames ≠ (2007 * 1000 + 999) / 1000 := by
  refine ⟨by decide, by norm_num, by decide⟩

/-- C5 amended: total_frame_count is the ceiling of the double-rounded
f64 product, which can exceed the exact ceiling of duration_ms/1000*fps
(by one at duration 2007 ms, fps 1000); when duration_ms is a whole
number of seconds — duration_ms = 1000*k — and the intermediate integers
stay below 2^53 (fps being a u32), every rounding is exact and
total_frame_count equals the exact ceiling k*fps. -/
theorem timeline_new_total_frames_exact_on_second_multiples (k fps : Nat)
    (hk : 1000 * k < 2 ^ 53) (hfps : fps < 2 ^ 32) (hkf : k * fps < 2 ^ 53) :
    (Timeline.new (1000 * k) fps).total_frames = k * fps ∧
    k * fps = (1000 * k * fps + 999) / 1000 := by
  constructor
  · show (Int.ceil (f64round
        (f64round (f64round ((1000 * k : Nat) : ℚ) / 1000) *
          f64round ((fps : Nat) : ℚ)))).toNat = k * fps
    have e1 : f64round ((1000 * k : Nat) : ℚ) = ((1000 * k : Nat) : ℚ) :=
      f64round_natCast _ hk
    have ediv : ((1000 * k : Nat) : ℚ) / 1000 = (k : ℚ) := by
      push_cast
      exact mul_div_cancel_left₀ _ (by norm_num)
    have e2 : f64round ((k : Nat) : ℚ) = (k : ℚ) := f64round_natCast k (by omega)
    have e3 : f64round ((fps : Nat) : ℚ) = (fps : ℚ) := f64round_natCast fps (by omega)
    have e4 : (k : ℚ) * (fps : ℚ) = ((k * fps : Nat) : ℚ) := by push_cast; ring
    have e5 : f64round ((k * fps : Nat) : ℚ) = ((k * fps : Nat) : ℚ) :=
      f64round_natCast _ hkf
    rw [e1, ediv, e2, e3, e4, e5, Int.ceil_natCast]
    exact Int.toNat_natCast _
  · have hmul : 1000 * k * fps = 1000 * (k * fps) := by ring
    rw [hmul]
    generalize k * fps = n
    omega

theorem timeline_new_total_frames_exact_witness :
    1000 * 2 < 2 ^ 53 ∧ 30 < 2 ^ 32 ∧ 2 * 30 < 2 ^ 53 ∧
    (Timeline.new (1000 * 2) 30).total_frames = 2 * 30 ∧
    2 * 30 = (1000 * 2 * 30 + 999) / 1000 :=
  ⟨by norm_num, by norm_num, by norm_num,
    (timeline_new_total_frames_exact_on_second_multiples 2 30 (by norm_num)
      (by norm_num) (by norm_num)).1,
    (timeline_new_total_frames_exact_on_second_multiples 2 30 (by norm_num)
      (by norm_num) (by norm_num)).2⟩
